import Mathlib

/-!
Verification of the bytecode JIT tutorial core.

This file embeds, from the C sources:
  * `micro-asm.h` — the instruction encoder primitives, modelled as
    constructors of `Jit.MicroOp` together with their exact byte
    encodings (`Jit.encode`); the C `char` parameter casts are modelled
    by explicit signed-byte truncation (`Jit.sbyte`).
  * `mandeljit.c`'s `compile` — `Jit.compile`, which walks the bytecode
    three characters at a time and emits micro-ops; the `exit(1)` on an
    undefined instruction is modelled as an `Except.error`.
  * `simple.c`'s `interpret` — `Jit.interpret`, the reference
    interpreter, acting on the same flat memory model.

Scalar 64-bit floating-point arithmetic is kept abstract: an `Jit.Ops D`
record supplies add / mul / sub / zero over an arbitrary carrier `D`.
Both the machine semantics of the emitted code and the interpreter are
parametric in these operations, so equivalence statements quantify over
every interpretation of the arithmetic; IEEE binary64 arithmetic on the
host is one such interpretation (its add and mul are commutative on the
non-NaN values the specification restricts itself to).

Memory is a flat function from byte offsets (ℤ) to scalars, one scalar
per 8-byte slot addressed by its starting offset; every access made by
the generated code and the interpreter is 8-byte aligned, so this
granularity is faithful.  The register file lives at offsets
16*j (real part) and 16*j + 8 (imaginary part) for register j, exactly
the layout `offsetof` computes in `mandeljit.c`.
-/

namespace Jit

/-- Abstract scalar arithmetic standing for the host's 64-bit
floating-point operations, plus the representation of the zero bit
pattern (used by the scalar-load instruction, which clears the upper
half of its destination register). -/
structure Ops (D : Type) where
  add : D → D → D
  mul : D → D → D
  sub : D → D → D
  zero : D

/-- Signed 8-bit truncation: the value produced by C's conversion of an
`int` to `char` (two's-complement wrap-around into [-128, 127]). -/
def sbyte (z : ℤ) : ℤ := (z + 128) % 256 - 128

/-- Unsigned byte value (in [0, 256)) with the same bit pattern as a
truncated displacement; this is the byte actually stored in the code
buffer by `asm_write`. -/
def byteOf (z : ℤ) : ℕ := (z % 256).toNat

/-- Micro-operations: one constructor per encoder primitive of
`micro-asm.h`, plus the return instruction emitted by
`asm_write(&a, 1, 0xc3)`.  A `disp` field holds the value of the
encoder's `char` parameter, i.e. it is already truncated to
[-128, 127]; `reg` fields hold the xmm register numbers 0..5 chosen by
the compiler. -/
inductive MicroOp where
  | movpd_reg_memory (reg : ℕ) (disp : ℤ)
  | movpd_memory_reg (disp : ℤ) (reg : ℕ)
  | addpd_memory_reg (disp : ℤ) (reg : ℕ)
  | movsd_reg_memory (reg : ℕ) (disp : ℤ)
  | movsd_memory_reg (disp : ℤ) (reg : ℕ)
  | movsd_reg_reg (src dst : ℕ)
  | mulsd (src dst : ℕ)
  | addsd (src dst : ℕ)
  | subsd (src dst : ℕ)
  | ret
  deriving DecidableEq

/-- Encoder primitive `movpd_reg_memory` of `micro-asm.h`; the `char
disp` parameter conversion is the `sbyte` truncation. -/
def movpd_reg_memory (reg : ℕ) (disp : ℤ) : MicroOp :=
  .movpd_reg_memory reg (sbyte disp)

/-- Encoder primitive `movpd_memory_reg` of `micro-asm.h`. -/
def movpd_memory_reg (disp : ℤ) (reg : ℕ) : MicroOp :=
  .movpd_memory_reg (sbyte disp) reg

/-- Encoder primitive `addpd_memory_reg` of `micro-asm.h`. -/
def addpd_memory_reg (disp : ℤ) (reg : ℕ) : MicroOp :=
  .addpd_memory_reg (sbyte disp) reg

/-- Encoder primitive `movsd_reg_memory` of `micro-asm.h`. -/
def movsd_reg_memory (reg : ℕ) (disp : ℤ) : MicroOp :=
  .movsd_reg_memory reg (sbyte disp)

/-- Encoder primitive `movsd_memory_reg` of `micro-asm.h`. -/
def movsd_memory_reg (disp : ℤ) (reg : ℕ) : MicroOp :=
  .movsd_memory_reg (sbyte disp) reg

/-- Encoder primitive `movsd_reg_reg` of `micro-asm.h`. -/
def movsd_reg_reg (src dst : ℕ) : MicroOp := .movsd_reg_reg src dst

/-- Encoder primitive `mulsd` of `micro-asm.h`. -/
def mulsd (src dst : ℕ) : MicroOp := .mulsd src dst

/-- Encoder primitive `addsd` of `micro-asm.h`. -/
def addsd (src dst : ℕ) : MicroOp := .addsd src dst

/-- Encoder primitive `subsd` of `micro-asm.h`. -/
def subsd (src dst : ℕ) : MicroOp := .subsd src dst

/-- Exact bytes each encoder primitive appends to the code buffer,
copied from the `asm_write` calls in `micro-asm.h`. -/
def encode : MicroOp → List ℕ
  | .movpd_reg_memory r d => [0x66, 0x0f, 0x11, (0x47 ||| (r <<< 3)) % 256, byteOf d]
  | .movpd_memory_reg d r => [0x66, 0x0f, 0x10, (0x47 ||| (r <<< 3)) % 256, byteOf d]
  | .addpd_memory_reg d r => [0x66, 0x0f, 0x58, (0x47 ||| (r <<< 3)) % 256, byteOf d]
  | .movsd_reg_memory r d => [0xf2, 0x0f, 0x11, (0x47 ||| (r <<< 3)) % 256, byteOf d]
  | .movsd_memory_reg d r => [0xf2, 0x0f, 0x10, (0x47 ||| (r <<< 3)) % 256, byteOf d]
  | .movsd_reg_reg s t => [0xf2, 0x0f, 0x11, (0xc0 ||| (s <<< 3) ||| t) % 256]
  | .mulsd s t => [0xf2, 0x0f, 0x59, (0xc0 ||| (t <<< 3) ||| s) % 256]
  | .addsd s t => [0xf2, 0x0f, 0x58, (0xc0 ||| (t <<< 3) ||| s) % 256]
  | .subsd s t => [0xf2, 0x0f, 0x5c, (0xc0 ||| (t <<< 3) ||| s) % 256]
  | .ret => [0xc3]

/-- Register index denoted by an operand character: `code[k] - 'a'` as
computed in `int` arithmetic ('a' is 97). -/
def regIdx (c : Char) : ℤ := (c.toNat : ℤ) - 97

/-- The displacement `sizeof(complex) * (code[k] - 'a')` as stored into
the `char` local `src_dsp` / `dst_dsp` of `compile` — note the silent
signed-byte truncation. -/
def charDisp (c : Char) : ℤ := sbyte (16 * regIdx c)

/-- Outcomes on which `compile` never returns a routine.
`unknownOpcode rest c` models the `default:` branch printing the
remaining program text `rest` (whose distance from the end of the
original program identifies the failing position) and the offending
character `c`, then calling `exit(1)`.  `truncated rest` marks a program
whose length is not a multiple of 3: there the C loop reads `code[1]` or
`code[2]` past the terminating NUL, which is undefined behaviour, so the
embedding rejects such programs explicitly. -/
inductive CompileError where
  | unknownOpcode (rest : List Char) (c : Char)
  | truncated (rest : List Char)
  deriving DecidableEq

/-- Decidable equality of compilation outcomes, so that concrete
compilations can be checked by evaluation. -/
instance {e a : Type} [DecidableEq e] [DecidableEq a] :
    DecidableEq (Except e a) := fun u v =>
  match u, v with
  | .error u1, .error v1 =>
      if h : u1 = v1 then isTrue (by rw [h]) else
        isFalse (by intro hh; injection hh; contradiction)
  | .ok u1, .ok v1 =>
      if h : u1 = v1 then isTrue (by rw [h]) else
        isFalse (by intro hh; injection hh; contradiction)
  | .error _, .ok _ => isFalse (fun hh => nomatch hh)
  | .ok _, .error _ => isFalse (fun hh => nomatch hh)

/-- Micro-ops emitted by the `case '=':` branch of `compile`. -/
def assignBlock (src_dsp dst_dsp : ℤ) : List MicroOp :=
  [movpd_memory_reg src_dsp 0,
   movpd_reg_memory 0 dst_dsp]

/-- Micro-ops emitted by the `case '+':` branch of `compile`. -/
def addBlock (src_dsp dst_dsp : ℤ) : List MicroOp :=
  [movpd_memory_reg src_dsp 0,
   addpd_memory_reg dst_dsp 0,
   movpd_reg_memory 0 dst_dsp]

/-- Micro-ops emitted by the `case '*':` branch of `compile`; the field
offsets `r = 0` and `i = 8` appear as the `+ 0` / `+ 8` summands, and
each sum is re-truncated by the encoder's `char` parameter. -/
def mulBlock (src_dsp dst_dsp : ℤ) : List MicroOp :=
  [movsd_memory_reg (src_dsp + 0) 0,
   movsd_memory_reg (src_dsp + 8) 1,
   movsd_memory_reg (dst_dsp + 0) 2,
   movsd_memory_reg (dst_dsp + 8) 3,
   movsd_reg_reg 0 4,
   mulsd 2 4,
   movsd_reg_reg 1 5,
   mulsd 3 5,
   subsd 5 4,
   movsd_reg_memory 4 (dst_dsp + 0),
   mulsd 0 3,
   mulsd 1 2,
   addsd 3 2,
   movsd_reg_memory 2 (dst_dsp + 8)]

/-- One iteration of the `switch (*code)` statement of `compile`:
micro-ops for a recognized operation, `none` for the `default:`
branch. -/
def emitInsn (op c1 c2 : Char) : Option (List MicroOp) :=
  if op = '=' then some (assignBlock (charDisp c1) (charDisp c2))
  else if op = '+' then some (addBlock (charDisp c1) (charDisp c2))
  else if op = '*' then some (mulBlock (charDisp c1) (charDisp c2))
  else none

/-- The `for (; *code; code += 3)` loop of `compile`: micro-ops of all
instructions in program order, or the first failure. -/
def compileBody : List Char → Except CompileError (List MicroOp)
  | [] => .ok []
  | op :: c1 :: c2 :: rest =>
      match emitInsn op c1 c2 with
      | some blk => (compileBody rest).map (fun tail => blk ++ tail)
      | none => .error (.unknownOpcode (op :: c1 :: c2 :: rest) op)
  | [c] => .error (.truncated [c])
  | [c1, c2] => .error (.truncated [c1, c2])

/-- `compile` of `mandeljit.c`: the loop body followed by the
unconditional trailing return instruction. -/
def compile (code : List Char) : Except CompileError (List MicroOp) :=
  (compileBody code).map (fun body => body ++ [MicroOp.ret])

/-- The byte stream `compile` deposits in the executable page. -/
def compileBytes (code : List Char) : Except CompileError (List ℕ) :=
  (compile code).map (fun ops => (ops.map encode).flatten)

/-- One 128-bit xmm register: low and high 64-bit scalar lanes. -/
structure XmmReg (D : Type) where
  lo : D
  hi : D

/-- The xmm register file of the executing CPU (only numbers 0..5 are
ever named by generated code). -/
abbrev XmmFile (D : Type) := ℕ → XmmReg D

/-- Flat data memory: one scalar per 8-byte slot, addressed by the byte
offset of the slot relative to the `complex* registers` argument.  All
accesses made by generated code and by the interpreter are 8-aligned. -/
abbrev Memory (D : Type) := ℤ → D

variable {D : Type}

/-- Memory update at one 8-byte slot. -/
def mupd (m : Memory D) (a : ℤ) (v : D) : Memory D :=
  fun b => if b = a then v else m b

/-- Xmm register file update. -/
def xupd (x : XmmFile D) (r : ℕ) (v : XmmReg D) : XmmFile D :=
  fun s => if s = r then v else x s

/-- Effect of a single micro-op on the machine state, following the
x86-64 SSE2 semantics of the instructions the encoder produces:
packed moves transfer both lanes; the scalar load `movsd xmm, m64`
clears the upper lane; scalar register-register moves and the scalar
arithmetic instructions leave the upper lane of the destination
unchanged; `dst op= src` operand order for the arithmetic. -/
def execOp (o : Ops D) (op : MicroOp) (x : XmmFile D) (m : Memory D) :
    XmmFile D × Memory D :=
  match op with
  | .movpd_reg_memory r d => (x, mupd (mupd m d (x r).lo) (d + 8) (x r).hi)
  | .movpd_memory_reg d r => (xupd x r ⟨m d, m (d + 8)⟩, m)
  | .addpd_memory_reg d r =>
      (xupd x r ⟨o.add (x r).lo (m d), o.add (x r).hi (m (d + 8))⟩, m)
  | .movsd_reg_memory r d => (x, mupd m d (x r).lo)
  | .movsd_memory_reg d r => (xupd x r ⟨m d, o.zero⟩, m)
  | .movsd_reg_reg s t => (xupd x t ⟨(x s).lo, (x t).hi⟩, m)
  | .mulsd s t => (xupd x t ⟨o.mul (x t).lo (x s).lo, (x t).hi⟩, m)
  | .addsd s t => (xupd x t ⟨o.add (x t).lo (x s).lo, (x t).hi⟩, m)
  | .subsd s t => (xupd x t ⟨o.sub (x t).lo (x s).lo, (x t).hi⟩, m)
  | .ret => (x, m)

/-- Run a compiled routine: execute micro-ops in order until the return
instruction (or the end of the list) and yield the final data memory —
the only state visible to the caller across the C calling convention. -/
def execOps (o : Ops D) : List MicroOp → XmmFile D → Memory D → Memory D
  | [], _, m => m
  | .ret :: _, _, m => m
  | op :: rest, x, m => execOps o rest (execOp o op x m).1 (execOp o op x m).2

/-- Failure of `interpret` in `simple.c` (again `exit(1)` on an
undefined instruction, and explicit rejection of the undefined-behaviour
read past the terminator of a truncated program). -/
inductive InterpError where
  | unknownOpcode (rest : List Char) (c : Char)
  | truncated (rest : List Char)
  deriving DecidableEq

/-- Byte offset of `registers[code[k] - 'a']` from the register-file
base in `interpret` — ordinary pointer arithmetic, no truncation. -/
def rdsp (c : Char) : ℤ := 16 * regIdx c

/-- `interpret` of `simple.c` on the flat memory model.  Field accesses
are sequenced exactly as in the source: assignment writes the real part
before reading the imaginary source field; addition reads and writes
the real slot before the imaginary one; multiplication computes both
locals `r` and `i` from memory before either store. -/
def interpret (o : Ops D) (m : Memory D) :
    List Char → Except InterpError (Memory D)
  | [] => .ok m
  | op :: c1 :: c2 :: rest =>
      if op = '=' then
        let m1 := mupd m (rdsp c2) (m (rdsp c1))
        interpret o (mupd m1 (rdsp c2 + 8) (m1 (rdsp c1 + 8))) rest
      else if op = '+' then
        let m1 := mupd m (rdsp c2) (o.add (m (rdsp c2)) (m (rdsp c1)))
        interpret o
          (mupd m1 (rdsp c2 + 8)
            (o.add (m1 (rdsp c2 + 8)) (m1 (rdsp c1 + 8)))) rest
      else if op = '*' then
        let nr := o.sub (o.mul (m (rdsp c2)) (m (rdsp c1)))
                        (o.mul (m (rdsp c2 + 8)) (m (rdsp c1 + 8)))
        let ni := o.add (o.mul (m (rdsp c2)) (m (rdsp c1 + 8)))
                        (o.mul (m (rdsp c2 + 8)) (m (rdsp c1)))
        interpret o (mupd (mupd m (rdsp c2) nr) (rdsp c2 + 8) ni) rest
      else .error (.unknownOpcode (op :: c1 :: c2 :: rest) op)
  | [c] => .error (.truncated [c])
  | [c1, c2] => .error (.truncated [c1, c2])

/-- Integer instantiation of the abstract scalar operations, used for
concrete test-vector evaluations: every test value and every
intermediate result of the specification's examples is a small integer,
exactly representable in binary64, on which IEEE arithmetic coincides
with ℤ arithmetic. -/
def intOps : Ops ℤ := ⟨fun a b => a + b, fun a b => a * b, fun a b => a - b, 0⟩

/-- Well-formed bytecode for a register file of `N` complex values:
every operation is recognized and every operand character denotes a
register index inside [0, N). -/
inductive WellFormed (N : ℕ) : List Char → Prop
  | nil : WellFormed N []
  | insn (op c1 c2 : Char) (rest : List Char) :
      (op = '=' ∨ op = '+' ∨ op = '*') →
      0 ≤ regIdx c1 → regIdx c1 < (N : ℤ) →
      0 ≤ regIdx c2 → regIdx c2 < (N : ℤ) →
      WellFormed N rest → WellFormed N (op :: c1 :: c2 :: rest)

/-- Bytecode whose operation bytes are all recognized (no constraint on
the operand characters). -/
inductive OpsKnown : List Char → Prop
  | nil : OpsKnown []
  | insn (op c1 c2 : Char) (rest : List Char) :
      (op = '=' ∨ op = '+' ∨ op = '*') →
      OpsKnown rest → OpsKnown (op :: c1 :: c2 :: rest)

/-- Displacement fields occurring in a micro-op (the values handed to
the encoder's `char disp` parameters). -/
def disps : MicroOp → List ℤ
  | .movpd_reg_memory _ d => [d]
  | .movpd_memory_reg d _ => [d]
  | .addpd_memory_reg d _ => [d]
  | .movsd_reg_memory _ d => [d]
  | .movsd_memory_reg d _ => [d]
  | _ => []

/-- Byte offsets a micro-op reads from data memory. -/
def rset : MicroOp → List ℤ
  | .movpd_memory_reg d _ => [d, d + 8]
  | .addpd_memory_reg d _ => [d, d + 8]
  | .movsd_memory_reg d _ => [d]
  | _ => []

/-- Byte offsets a micro-op writes to data memory. -/
def wset : MicroOp → List ℤ
  | .movpd_reg_memory _ d => [d, d + 8]
  | .movsd_reg_memory _ d => [d]
  | _ => []

/-- Whether a micro-op loads from data memory into an xmm register. -/
def isMemLoad : MicroOp → Bool
  | .movpd_memory_reg _ _ => true
  | .addpd_memory_reg _ _ => true
  | .movsd_memory_reg _ _ => true
  | _ => false

/-- Whether a micro-op stores an xmm register to data memory. -/
def isMemStore : MicroOp → Bool
  | .movpd_reg_memory _ _ => true
  | .movsd_reg_memory _ _ => true
  | _ => false

/-- Concrete all-zero xmm file over ℤ (the generated code never reads an
xmm register before writing it, so any initial content would do). -/
def x0q : XmmFile ℤ := fun _ => ⟨0, 0⟩

/-- Test memory for the assign example: register a = (3, 4),
register b = (9, -1), all other slots zero. -/
def memAssign : Memory ℤ := fun a =>
  if a = 0 then 3 else if a = 8 then 4 else
  if a = 16 then 9 else if a = 24 then -1 else 0

/-- Test memory for the multiply example: register a = (2, 3),
register b = (4, -1). -/
def memMul : Memory ℤ := fun a =>
  if a = 0 then 2 else if a = 8 then 3 else
  if a = 16 then 4 else if a = 24 then -1 else 0

/-- Test memory for the square example: register a = (r, i). -/
def memSq (r i : ℤ) : Memory ℤ := fun a =>
  if a = 0 then r else if a = 8 then i else 0

/-- Environment memory distinguishing the two out-of-range slots that
the program `"=za"` makes the interpreter (offset 400) and the compiled
routine (offset -112, after signed-byte truncation of 400) read. -/
def memEnv : Memory ℤ := fun a =>
  if a = 400 then 1 else if a = -112 then 2 else 0

theorem mupd_apply (m : Memory D) (a : ℤ) (v : D) (b : ℤ) :
    mupd m a v b = if b = a then v else m b := rfl

theorem xupd_apply (x : XmmFile D) (r : ℕ) (v : XmmReg D) (s : ℕ) :
    xupd x r v s = if s = r then v else x s := rfl

theorem sbyte_lb (z : ℤ) : -128 ≤ sbyte z := by unfold sbyte; omega

theorem sbyte_ub (z : ℤ) : sbyte z ≤ 127 := by unfold sbyte; omega

theorem sbyte_small {z : ℤ} (h1 : -128 ≤ z) (h2 : z ≤ 127) : sbyte z = z := by
  unfold sbyte; omega

theorem charDisp_eq {c : Char} (h0 : 0 ≤ regIdx c) (h8 : regIdx c < 8) :
    charDisp c = rdsp c := by
  unfold charDisp rdsp
  exact sbyte_small (by omega) (by omega)

theorem sbyte_charDisp {c : Char} (h0 : 0 ≤ regIdx c) (h8 : regIdx c < 8) :
    sbyte (charDisp c) = rdsp c := by
  rw [charDisp_eq h0 h8]
  unfold rdsp
  exact sbyte_small (by omega) (by omega)

theorem sbyte_charDisp_zero {c : Char} (h0 : 0 ≤ regIdx c) (h8 : regIdx c < 8) :
    sbyte (charDisp c + 0) = rdsp c := by
  rw [add_zero]
  exact sbyte_charDisp h0 h8

theorem sbyte_charDisp_eight {c : Char} (h0 : 0 ≤ regIdx c) (h8 : regIdx c < 8) :
    sbyte (charDisp c + 8) = rdsp c + 8 := by
  rw [charDisp_eq h0 h8]
  unfold rdsp
  exact sbyte_small (by omega) (by omega)

/-- A real-part slot (offset 16 k) never coincides with an
imaginary-part slot (offset 16 j + 8), whatever the registers. -/
theorem rdsp_succ_ne (c c' : Char) : rdsp c + 8 ≠ rdsp c' := by
  unfold rdsp regIdx; omega

theorem execOps_assignBlock (o : Ops D) (s d : ℤ) (L : List MicroOp)
    (x : XmmFile D) (m : Memory D) :
    ∃ x', execOps o (assignBlock s d ++ L) x m
      = execOps o L x'
          (mupd (mupd m (sbyte d) (m (sbyte s))) (sbyte d + 8)
            (m (sbyte s + 8))) :=
  ⟨_, rfl⟩

theorem execOps_addBlock (o : Ops D) (s d : ℤ) (L : List MicroOp)
    (x : XmmFile D) (m : Memory D) :
    ∃ x', execOps o (addBlock s d ++ L) x m
      = execOps o L x'
          (mupd (mupd m (sbyte d) (o.add (m (sbyte s)) (m (sbyte d))))
            (sbyte d + 8) (o.add (m (sbyte s + 8)) (m (sbyte d + 8)))) :=
  ⟨_, rfl⟩

theorem execOps_mulBlock (o : Ops D) (s d : ℤ) (L : List MicroOp)
    (x : XmmFile D) (m : Memory D) :
    ∃ x', execOps o (mulBlock s d ++ L) x m
      = execOps o L x'
          (mupd (mupd m (sbyte (d + 0))
              (o.sub (o.mul (m (sbyte (s + 0))) (m (sbyte (d + 0))))
                     (o.mul (m (sbyte (s + 8))) (m (sbyte (d + 8))))))
            (sbyte (d + 8))
            (o.add (o.mul (m (sbyte (d + 0))) (m (sbyte (s + 8))))
                   (o.mul (m (sbyte (d + 8))) (m (sbyte (s + 0)))))) :=
  ⟨_, rfl⟩

theorem interpret_nil (o : Ops D) (m : Memory D) :
    interpret o m [] = .ok m := rfl

theorem interpret_cons_assign (o : Ops D) (m : Memory D) (c1 c2 : Char)
    (rest : List Char) :
    interpret o m ('=' :: c1 :: c2 :: rest)
      = interpret o
          (mupd (mupd m (rdsp c2) (m (rdsp c1))) (rdsp c2 + 8)
            ((mupd m (rdsp c2) (m (rdsp c1))) (rdsp c1 + 8))) rest := rfl

theorem interpret_cons_add (o : Ops D) (m : Memory D) (c1 c2 : Char)
    (rest : List Char) :
    interpret o m ('+' :: c1 :: c2 :: rest)
      = interpret o
          (mupd (mupd m (rdsp c2) (o.add (m (rdsp c2)) (m (rdsp c1))))
            (rdsp c2 + 8)
            (o.add ((mupd m (rdsp c2) (o.add (m (rdsp c2)) (m (rdsp c1))))
                (rdsp c2 + 8))
              ((mupd m (rdsp c2) (o.add (m (rdsp c2)) (m (rdsp c1))))
                (rdsp c1 + 8)))) rest := rfl

theorem interpret_cons_mul (o : Ops D) (m : Memory D) (c1 c2 : Char)
    (rest : List Char) :
    interpret o m ('*' :: c1 :: c2 :: rest)
      = interpret o
          (mupd (mupd m (rdsp c2)
              (o.sub (o.mul (m (rdsp c2)) (m (rdsp c1)))
                     (o.mul (m (rdsp c2 + 8)) (m (rdsp c1 + 8)))))
            (rdsp c2 + 8)
            (o.add (o.mul (m (rdsp c2)) (m (rdsp c1 + 8)))
                   (o.mul (m (rdsp c2 + 8)) (m (rdsp c1))))) rest := rfl

theorem compileBody_cons_assign (c1 c2 : Char) (rest : List Char) :
    compileBody ('=' :: c1 :: c2 :: rest)
      = (compileBody rest).map
          (fun tail => assignBlock (charDisp c1) (charDisp c2) ++ tail) := rfl

theorem compileBody_cons_add (c1 c2 : Char) (rest : List Char) :
    compileBody ('+' :: c1 :: c2 :: rest)
      = (compileBody rest).map
          (fun tail => addBlock (charDisp c1) (charDisp c2) ++ tail) := rfl

theorem compileBody_cons_mul (c1 c2 : Char) (rest : List Char) :
    compileBody ('*' :: c1 :: c2 :: rest)
      = (compileBody rest).map
          (fun tail => mulBlock (charDisp c1) (charDisp c2) ++ tail) := rfl

/-- Well-formedness is monotone in the register count. -/
theorem wellFormed_mono {N M : ℕ} (hNM : N ≤ M) {code : List Char}
    (h : WellFormed N code) : WellFormed M code := by
  induction h with
  | nil => exact .nil
  | insn op c1 c2 rest hop h1 h2 h3 h4 _ ih =>
      refine .insn op c1 c2 rest hop h1 ?_ h3 ?_ ih
      · calc regIdx c1 < (N : ℤ) := h2
          _ ≤ (M : ℤ) := by exact_mod_cast hNM
      · calc regIdx c2 < (N : ℤ) := h4
          _ ≤ (M : ℤ) := by exact_mod_cast hNM

/-- Compilation of well-formed bytecode always succeeds (indeed the C
compiler succeeds on anything with recognized operation bytes). -/
theorem compileBody_ok_of_wf {N : ℕ} {code : List Char}
    (h : WellFormed N code) : ∃ body, compileBody code = .ok body := by
  induction h with
  | nil => exact ⟨[], rfl⟩
  | insn op c1 c2 rest hop h1 h2 h3 h4 _ ih =>
      obtain ⟨tail, ht⟩ := ih
      rcases hop with rfl | rfl | rfl
      · exact ⟨_, by rw [compileBody_cons_assign, ht]; rfl⟩
      · exact ⟨_, by rw [compileBody_cons_add, ht]; rfl⟩
      · exact ⟨_, by rw [compileBody_cons_mul, ht]; rfl⟩

/-- Core simulation argument: on bytecode whose register operands all
lie in [0, 8) — so that no displacement truncation occurs — running the
compiled micro-ops from any initial xmm state produces exactly the
interpreter's memory, provided the abstract add and mul are commutative
(as IEEE binary64 add and mul are on the non-NaN values). -/
theorem interp_exec_equiv (o : Ops D)
    (hadd : ∀ a b : D, o.add a b = o.add b a)
    (hmul : ∀ a b : D, o.mul a b = o.mul b a) :
    ∀ code : List Char, WellFormed 8 code →
      ∀ body, compileBody code = .ok body →
        ∀ (x : XmmFile D) (m : Memory D),
          interpret o m code = .ok (execOps o (body ++ [MicroOp.ret]) x m) := by
  intro code h
  induction h with
  | nil =>
      intro body hb x m
      injection hb with hb
      subst hb
      rfl
  | insn op c1 c2 rest hop h1 h2 h3 h4 hwf ih =>
      intro body hb x m
      have h2' : regIdx c1 < 8 := by exact_mod_cast h2
      have h4' : regIdx c2 < 8 := by exact_mod_cast h4
      rcases hop with rfl | rfl | rfl
      · rw [compileBody_cons_assign] at hb
        cases hres : compileBody rest with
        | error e => rw [hres] at hb; simp [Except.map] at hb
        | ok tail =>
            rw [hres] at hb
            simp only [Except.map] at hb
            injection hb with hb
            subst hb
            rw [List.append_assoc]
            obtain ⟨x', hex⟩ :=
              execOps_assignBlock o (charDisp c1) (charDisp c2)
                (tail ++ [MicroOp.ret]) x m
            rw [hex, sbyte_charDisp h1 h2', sbyte_charDisp h3 h4',
              interpret_cons_assign,
              mupd_apply m (rdsp c2),
              if_neg (rdsp_succ_ne c1 c2)]
            exact ih tail hres x' _
      · rw [compileBody_cons_add] at hb
        cases hres : compileBody rest with
        | error e => rw [hres] at hb; simp [Except.map] at hb
        | ok tail =>
            rw [hres] at hb
            simp only [Except.map] at hb
            injection hb with hb
            subst hb
            rw [List.append_assoc]
            obtain ⟨x', hex⟩ :=
              execOps_addBlock o (charDisp c1) (charDisp c2)
                (tail ++ [MicroOp.ret]) x m
            rw [hex, sbyte_charDisp h1 h2', sbyte_charDisp h3 h4',
              interpret_cons_add,
              mupd_apply m (rdsp c2) _ (rdsp c2 + 8),
              if_neg (by omega : ¬ rdsp c2 + 8 = rdsp c2),
              mupd_apply m (rdsp c2) _ (rdsp c1 + 8),
              if_neg (rdsp_succ_ne c1 c2),
              hadd (m (rdsp c2)) (m (rdsp c1)),
              hadd (m (rdsp c2 + 8)) (m (rdsp c1 + 8))]
            exact ih tail hres x' _
      · rw [compileBody_cons_mul] at hb
        cases hres : compileBody rest with
        | error e => rw [hres] at hb; simp [Except.map] at hb
        | ok tail =>
            rw [hres] at hb
            simp only [Except.map] at hb
            injection hb with hb
            subst hb
            rw [List.append_assoc]
            obtain ⟨x', hex⟩ :=
              execOps_mulBlock o (charDisp c1) (charDisp c2)
                (tail ++ [MicroOp.ret]) x m
            rw [hex, sbyte_charDisp_zero h1 h2', sbyte_charDisp_zero h3 h4',
              sbyte_charDisp_eight h1 h2', sbyte_charDisp_eight h3 h4',
              interpret_cons_mul,
              hmul (m (rdsp c2)) (m (rdsp c1)),
              hmul (m (rdsp c2 + 8)) (m (rdsp c1 + 8))]
            exact ih tail hres x' _

/-- C1 counterexample: the claim quantifies over every bytecode program
the compiler accepts, but the compiler accepts `"=za"`, whose source
register z is outside the 4-register file.  There the interpreter reads
byte offset 400 while the compiled routine reads offset -112 (the
signed-byte truncation of 400), so on a memory environment
distinguishing those two slots the resulting register a — inside the
register file — differs between the two: 1 versus 2. -/
theorem c1_accepted_program_divergence :
    ∃ ops, compile ['=', 'z', 'a'] = .ok ops ∧
      ∃ mi, interpret intOps memEnv ['=', 'z', 'a'] = .ok mi ∧
        mi 0 = 1 ∧ execOps intOps ops x0q memEnv 0 = 2 ∧
        mi 0 ≠ execOps intOps ops x0q memEnv 0 := by
  refine ⟨[MicroOp.movpd_memory_reg (-112) 0, MicroOp.movpd_reg_memory 0 0,
    MicroOp.ret], by decide, ?_⟩
  refine ⟨_, rfl, ?_, ?_, ?_⟩ <;> decide

/-- C1 (amended): for every bytecode program that is well formed for the
4-register file — recognized operations and both register operands in
[0, 4) — compilation succeeds and invoking the compiled routine from any
initial xmm state yields exactly the memory the interpreter `interpret`
of simple.c produces, for every interpretation of the scalar arithmetic
whose add and mul are commutative.  IEEE binary64 add and mul are
commutative on all finite (indeed all non-NaN) values, so the compiled
routine's register file is bit-identical to the interpreter's for all
finite double inputs, including zeros, negatives and subnormals. -/
theorem c1_jit_matches_interpreter (D : Type) (o : Ops D)
    (hadd : ∀ a b : D, o.add a b = o.add b a)
    (hmul : ∀ a b : D, o.mul a b = o.mul b a)
    (code : List Char) (h : WellFormed 4 code) :
    ∃ ops, compile code = .ok ops ∧
      ∀ (x : XmmFile D) (m : Memory D),
        interpret o m code = .ok (execOps o ops x m) := by
  obtain ⟨body, hb⟩ := compileBody_ok_of_wf h
  refine ⟨body ++ [MicroOp.ret], ?_, ?_⟩
  · unfold compile; rw [hb]; rfl
  · exact fun x m =>
      interp_exec_equiv o hadd hmul code (wellFormed_mono (by omega) h) body hb x m

/-- Witness for C1: the amended equivalence applied to `"=ab"` over ℤ. -/
theorem c1_jit_matches_interpreter_witness :
    ∃ ops, compile ['=', 'a', 'b'] = .ok ops ∧
      ∀ (x : XmmFile ℤ) (m : Memory ℤ),
        interpret intOps m ['=', 'a', 'b'] = .ok (execOps intOps ops x m) :=
  c1_jit_matches_interpreter ℤ intOps
    (fun a b => add_comm a b) (fun a b => mul_comm a b)
    ['=', 'a', 'b']
    (WellFormed.insn '=' 'a' 'b' [] (Or.inl rfl)
      (by decide) (by decide) (by decide) (by decide) WellFormed.nil)

/-- C2 counterexample: the claim says compiling `"=az"` (z out of range
for N=4) must fail with an `InvalidRegister` error and produce no
routine; in fact `compile` performs no register validation at all and
returns a routine for `"=az"`. -/
theorem c2_invalid_register_accepted :
    (∃ ops, compile ['=', 'a', 'z'] = .ok ops) ∧
      ∀ e, compile ['=', 'a', 'z'] ≠ .error e :=
  ⟨⟨[MicroOp.movpd_memory_reg 0 0, MicroOp.movpd_reg_memory 0 (-112),
     MicroOp.ret], by decide⟩,
   fun _ h => nomatch h⟩

/-- C2 (amended): the compiler checks nothing about register operand
indices.  Compiling `"=az"` with a 4-register file succeeds: the
destination displacement 16 * 25 = 400 is silently truncated by the
`char` conversion to -112, the emitted code carries the displacement
byte 0x90, and a routine (ending in the return instruction) is
produced. -/
theorem c2_out_of_range_silently_truncated :
    compile ['=', 'a', 'z']
      = .ok [.movpd_memory_reg 0 0, .movpd_reg_memory 0 (-112), .ret] ∧
    charDisp 'z' = -112 ∧
    compileBytes ['=', 'a', 'z']
      = .ok [0x66, 0x0f, 0x10, 0x47, 0x00,
             0x66, 0x0f, 0x11, 0x47, 0x90, 0xc3] :=
  ⟨by decide, by decide, by decide⟩

/-- C5: the multiply case of `compile` emits, for any pair of operand
characters, exactly the 14-instruction sequence `mulBlock`: its first
four micro-ops load src.r, src.i, dst.r, dst.i into four distinct
scratch registers, and no store to memory occurs among the first nine
micro-ops (the two stores are the 10th and the 14th) — so the original
destination values are never overwritten mid-computation.  Invoking the
routine compiled from `"*ab"` with a = (2, 3) and b = (4, -1) yields
b = (11, 10). -/
theorem c5_multiply_loads_before_stores :
    (∀ c1 c2 : Char, emitInsn '*' c1 c2
        = some (mulBlock (charDisp c1) (charDisp c2))) ∧
    (∀ s d : ℤ,
        ((mulBlock s d).take 4).all isMemLoad = true ∧
        ((mulBlock s d).take 9).all (fun op => ! isMemStore op) = true ∧
        isMemStore ((mulBlock s d).getD 9 .ret) = true ∧
        isMemStore ((mulBlock s d).getD 13 .ret) = true) ∧
    (∃ ops, compile ['*', 'a', 'b'] = .ok ops ∧
      ∀ x : XmmFile ℤ,
        execOps intOps ops x memMul 16 = 11 ∧
        execOps intOps ops x memMul 24 = 10) := by
  refine ⟨fun c1 c2 => rfl, fun s d => ⟨rfl, rfl, rfl, rfl⟩, ?_⟩
  refine ⟨mulBlock 0 16 ++ [MicroOp.ret], by decide, fun x => ⟨?_, ?_⟩⟩
  · show (mupd (mupd memMul 16 (memMul 0 * memMul 16 - memMul 8 * memMul 24)) 24
        (memMul 16 * memMul 8 + memMul 24 * memMul 0)) 16 = 11
    decide
  · show (mupd (mupd memMul 16 (memMul 0 * memMul 16 - memMul 8 * memMul 24)) 24
        (memMul 16 * memMul 8 + memMul 24 * memMul 0)) 24 = 10
    decide

/-- C8: the routine compiled from `"=ab"` maps the register file with
a = (3, 4), b = (9, -1) to one with b = (3, 4); its effect on memory is
a pure function of the input memory (independent of the incoming xmm
state), and invoking it a second time on its own output changes
nothing. -/
theorem c8_assign_idempotent :
    ∃ ops, compile ['=', 'a', 'b'] = .ok ops ∧
      ∀ x : XmmFile ℤ,
        execOps intOps ops x memAssign 16 = 3 ∧
        execOps intOps ops x memAssign 24 = 4 ∧
        ∀ x' : XmmFile ℤ,
          execOps intOps ops x' (execOps intOps ops x memAssign)
            = execOps intOps ops x memAssign := by
  have hx : ∀ (y : XmmFile ℤ) (m : Memory ℤ),
      execOps intOps [MicroOp.movpd_memory_reg 0 0, MicroOp.movpd_reg_memory 0 16,
          MicroOp.ret] y m
        = mupd (mupd m 16 (m 0)) 24 (m 8) := fun y m => rfl
  refine ⟨[MicroOp.movpd_memory_reg 0 0, MicroOp.movpd_reg_memory 0 16,
      MicroOp.ret], by decide,
    fun x => ⟨?_, ?_, fun x' => ?_⟩⟩
  · rw [hx]; decide
  · rw [hx]; decide
  · rw [hx, hx]
    funext b
    by_cases hb1 : b = 24
    · subst hb1; decide
    · by_cases hb2 : b = 16
      · subst hb2; decide
      · simp [mupd, hb1, hb2]

/-- C9: squaring a register in place.  The source and destination of
`"*aa"` coincide, yet because all four scalar operands are loaded into
scratch registers before the first store, invoking the routine compiled
from `"*aa"` with a = (r, i) yields a = (r*r - i*i, 2*(r*i)), for any
integer r and i and any incoming xmm state. -/
theorem c9_square_in_place (r i : ℤ) :
    ∃ ops, compile ['*', 'a', 'a'] = .ok ops ∧
      ∀ x : XmmFile ℤ,
        execOps intOps ops x (memSq r i) 0 = r * r - i * i ∧
        execOps intOps ops x (memSq r i) 8 = 2 * (r * i) := by
  refine ⟨mulBlock 0 0 ++ [MicroOp.ret], by decide, fun x => ⟨?_, ?_⟩⟩
  · show memSq r i 0 * memSq r i 0 - memSq r i 8 * memSq r i 8 = r * r - i * i
    show r * r - i * i = r * r - i * i
    rfl
  · show memSq r i 0 * memSq r i 8 + memSq r i 8 * memSq r i 0 = 2 * (r * i)
    show r * i + i * r = 2 * (r * i)
    ring

theorem compileBody_cons_match (op c1 c2 : Char) (rest : List Char) :
    compileBody (op :: c1 :: c2 :: rest)
      = (match emitInsn op c1 c2 with
         | some blk => (compileBody rest).map (fun tail => blk ++ tail)
         | none => .error (.unknownOpcode (op :: c1 :: c2 :: rest) op)) := rfl

theorem emitInsn_none {op : Char} (c1 c2 : Char)
    (hop : ¬ (op = '=' ∨ op = '+' ∨ op = '*')) :
    emitInsn op c1 c2 = none := by
  unfold emitInsn
  rw [if_neg (fun h => hop (Or.inl h)),
    if_neg (fun h => hop (Or.inr (Or.inl h))),
    if_neg (fun h => hop (Or.inr (Or.inr h)))]

/-- C4: an unrecognized operation byte aborts the whole compilation at
the first offending instruction: whatever valid instructions precede it,
`compile` stops and fails with an `unknownOpcode` outcome carrying the
remaining program text (which identifies the failing position as the
distance from the start) and the offending character — this is the
embedding of the `default:` branch printing `code` and `*code` and
calling `exit(1)`.  No routine is produced: the error outcome carries no
micro-ops and no bytes. -/
theorem c4_unknown_opcode_aborts (pre : List Char) (hpre : OpsKnown pre)
    (op c1 c2 : Char) (rest : List Char)
    (hop : ¬ (op = '=' ∨ op = '+' ∨ op = '*')) :
    compile (pre ++ op :: c1 :: c2 :: rest)
      = .error (.unknownOpcode (op :: c1 :: c2 :: rest) op) := by
  have key : compileBody (pre ++ op :: c1 :: c2 :: rest)
      = .error (.unknownOpcode (op :: c1 :: c2 :: rest) op) := by
    induction hpre with
    | nil =>
        rw [List.nil_append, compileBody_cons_match, emitInsn_none c1 c2 hop]
    | insn op2 c12 c22 rest2 hop2 hk ih =>
        rcases hop2 with rfl | rfl | rfl
        · rw [List.cons_append, List.cons_append, List.cons_append,
            compileBody_cons_assign, ih]
          rfl
        · rw [List.cons_append, List.cons_append, List.cons_append,
            compileBody_cons_add, ih]
          rfl
        · rw [List.cons_append, List.cons_append, List.cons_append,
            compileBody_cons_mul, ih]
          rfl
  unfold compile
  rw [key]
  rfl

/-- Witness for C4: the valid instruction `"=ab"` followed by the
unrecognized opcode `?` makes the whole compilation fail with the
`unknownOpcode` outcome at that position. -/
theorem c4_unknown_opcode_aborts_witness :
    compile (['=', 'a', 'b'] ++ ['?', 'a', 'b'])
      = .error (.unknownOpcode ['?', 'a', 'b'] '?') :=
  c4_unknown_opcode_aborts ['=', 'a', 'b']
    (OpsKnown.insn '=' 'a' 'b' [] (Or.inl rfl) OpsKnown.nil)
    '?' 'a' 'b' [] (by decide)

/-- Every micro-op of a successfully compiled loop body comes from some
`emitInsn` block. -/
theorem compileBody_blocks :
    ∀ (code : List Char) (body : List MicroOp), compileBody code = .ok body →
      ∀ op' ∈ body,
        ∃ op c1 c2 blk, emitInsn op c1 c2 = some blk ∧ op' ∈ blk := by
  suffices key : ∀ (n : ℕ) (code : List Char), code.length ≤ n →
      ∀ body, compileBody code = .ok body →
        ∀ op' ∈ body,
          ∃ op c1 c2 blk, emitInsn op c1 c2 = some blk ∧ op' ∈ blk by
    exact fun code body hb => key code.length code le_rfl body hb
  intro n
  induction n with
  | zero =>
      intro code hlen body hb op' hmem
      rcases code with _ | ⟨a, code⟩
      · injection hb with hb; subst hb; simp at hmem
      · simp at hlen
  | succ n ih =>
      intro code hlen body hb op' hmem
      rcases code with _ | ⟨o1, _ | ⟨o2, _ | ⟨o3, rest⟩⟩⟩
      · injection hb with hb; subst hb; simp at hmem
      · simp [compileBody] at hb
      · simp [compileBody] at hb
      · rw [compileBody_cons_match] at hb
        cases he : emitInsn o1 o2 o3 with
        | none => rw [he] at hb; simp at hb
        | some blk =>
            rw [he] at hb
            cases hres : compileBody rest with
            | error e => rw [hres] at hb; simp [Except.map] at hb
            | ok tail =>
                rw [hres] at hb
                simp only [Except.map] at hb
                injection hb with hb
                subst hb
                rcases List.mem_append.mp hmem with hin | hin
                · exact ⟨o1, o2, o3, blk, he, hin⟩
                · have hlen2 : rest.length ≤ n := by
                    simp [List.length_cons] at hlen; omega
                  exact ih rest hlen2 tail hres op' hin

/-- No `emitInsn` block contains the return instruction. -/
theorem emitInsn_no_ret {op c1 c2 : Char} {blk : List MicroOp}
    (h : emitInsn op c1 c2 = some blk) : MicroOp.ret ∉ blk := by
  unfold emitInsn at h
  split_ifs at h
  · injection h with h; subst h
    simp [assignBlock, movpd_memory_reg, movpd_reg_memory]
  · injection h with h; subst h
    simp [addBlock, movpd_memory_reg, addpd_memory_reg, movpd_reg_memory]
  · injection h with h; subst h
    simp [mulBlock, movsd_memory_reg, movsd_reg_memory, movsd_reg_reg,
      mulsd, addsd, subsd]

/-- C6: every routine `compile` returns ends in exactly one return
instruction: the micro-ops are the loop body (which never contains a
return) followed by one final return, the emitted bytes are the body's
bytes followed by the final byte 0xc3, and for the empty program the
routine is precisely the single return instruction.  The append of the
return is the unconditional last emission step of `compile`. -/
theorem c6_return_always_last (code : List Char) (ops : List MicroOp)
    (h : compile code = .ok ops) :
    (code = [] → ops = [MicroOp.ret]) ∧
    ∃ body, ops = body ++ [MicroOp.ret] ∧ MicroOp.ret ∉ body ∧
      (ops.map encode).flatten = (body.map encode).flatten ++ [0xc3] := by
  unfold compile at h
  cases hres : compileBody code with
  | error e => rw [hres] at h; simp [Except.map] at h
  | ok body =>
      rw [hres] at h
      simp only [Except.map] at h
      injection h with h
      subst h
      refine ⟨?_, body, rfl, ?_, ?_⟩
      · intro hcode
        subst hcode
        have hbody : ([] : List MicroOp) = body := by
          injection hres with h2
        rw [← hbody]
        rfl
      · intro hmem
        obtain ⟨op, c1, c2, blk, he, hin⟩ :=
          compileBody_blocks code body hres _ hmem
        exact emitInsn_no_ret he hin
      · simp [encode]

/-- Witness for C6 at the program `"=ab"`. -/
theorem c6_return_always_last_witness :
    (['=', 'a', 'b'] = ([] : List Char) →
      [MicroOp.movpd_memory_reg 0 0, MicroOp.movpd_reg_memory 0 16,
        MicroOp.ret] = [MicroOp.ret]) ∧
    ∃ body, [MicroOp.movpd_memory_reg 0 0, MicroOp.movpd_reg_memory 0 16,
        MicroOp.ret] = body ++ [MicroOp.ret] ∧ MicroOp.ret ∉ body ∧
      (([MicroOp.movpd_memory_reg 0 0, MicroOp.movpd_reg_memory 0 16,
          MicroOp.ret]).map encode).flatten
        = (body.map encode).flatten ++ [0xc3] :=
  c6_return_always_last ['=', 'a', 'b'] _ (by decide)

/-- Every displacement field of every emitted micro-op already lies in
[-128, 127]: it went through the encoder's `char` parameter. -/
theorem emitInsn_disps {op c1 c2 : Char} {blk : List MicroOp}
    (h : emitInsn op c1 c2 = some blk) :
    ∀ op' ∈ blk, ∀ b ∈ disps op', -128 ≤ b ∧ b ≤ 127 := by
  unfold emitInsn at h
  split_ifs at h
  · injection h with h; subst h
    intro op' hmem b hb
    simp [assignBlock, movpd_memory_reg, movpd_reg_memory] at hmem
    rcases hmem with rfl | rfl <;> simp [disps] at hb <;> subst hb <;>
      exact ⟨sbyte_lb _, sbyte_ub _⟩
  · injection h with h; subst h
    intro op' hmem b hb
    simp [addBlock, movpd_memory_reg, addpd_memory_reg,
      movpd_reg_memory] at hmem
    rcases hmem with rfl | rfl | rfl <;> simp [disps] at hb <;> subst hb <;>
      exact ⟨sbyte_lb _, sbyte_ub _⟩
  · injection h with h; subst h
    intro op' hmem b hb
    simp [mulBlock, movsd_memory_reg, movsd_reg_memory, movsd_reg_reg,
      mulsd, addsd, subsd] at hmem
    rcases hmem with rfl | rfl | rfl | rfl | rfl | rfl | rfl | rfl | rfl |
      rfl | rfl | rfl | rfl | rfl
    all_goals simp [disps] at hb
    all_goals subst hb
    all_goals exact ⟨sbyte_lb _, sbyte_ub _⟩

theorem rdsp_bounds {c : Char} {N : ℕ} (h0 : 0 ≤ regIdx c)
    (hN : regIdx c < (N : ℤ)) :
    0 ≤ rdsp c ∧ rdsp c + 8 < 16 * (N : ℤ) := by
  unfold rdsp; omega

/-- On bytecode well formed for at most 8 registers, the displacement
fields of the emitted loop body stay in [0, 120] (no truncation ever
fires). -/
theorem compileBody_disps_wf :
    ∀ {code : List Char}, WellFormed 8 code →
      ∀ body, compileBody code = .ok body →
        ∀ op ∈ body, ∀ b ∈ disps op, 0 ≤ b ∧ b ≤ 120 := by
  intro code h
  induction h with
  | nil =>
      intro body hb op hmem
      injection hb with hb; subst hb; simp at hmem
  | insn op c1 c2 rest hop h1 h2 h3 h4 hwf ih =>
      intro body hb op' hmem b hb2
      have h2' : regIdx c1 < 8 := by exact_mod_cast h2
      have h4' : regIdx c2 < 8 := by exact_mod_cast h4
      have E1 : rdsp c1 = 16 * regIdx c1 := rfl
      have E2 : rdsp c2 = 16 * regIdx c2 := rfl
      rcases hop with rfl | rfl | rfl
      · rw [compileBody_cons_assign] at hb
        cases hres : compileBody rest with
        | error e => rw [hres] at hb; simp [Except.map] at hb
        | ok tail =>
            rw [hres] at hb; simp only [Except.map] at hb
            injection hb with hb; subst hb
            rcases List.mem_append.mp hmem with hin | hin
            · simp [assignBlock, movpd_memory_reg, movpd_reg_memory] at hin
              rcases hin with rfl | rfl
              all_goals simp [disps] at hb2
              all_goals subst hb2
              · rw [sbyte_charDisp h1 h2']; omega
              · rw [sbyte_charDisp h3 h4']; omega
            · exact ih tail hres op' hin b hb2
      · rw [compileBody_cons_add] at hb
        cases hres : compileBody rest with
        | error e => rw [hres] at hb; simp [Except.map] at hb
        | ok tail =>
            rw [hres] at hb; simp only [Except.map] at hb
            injection hb with hb; subst hb
            rcases List.mem_append.mp hmem with hin | hin
            · simp [addBlock, movpd_memory_reg, addpd_memory_reg,
                movpd_reg_memory] at hin
              rcases hin with rfl | rfl | rfl
              all_goals simp [disps] at hb2
              all_goals subst hb2
              · rw [sbyte_charDisp h1 h2']; omega
              · rw [sbyte_charDisp h3 h4']; omega
              · rw [sbyte_charDisp h3 h4']; omega
            · exact ih tail hres op' hin b hb2
      · rw [compileBody_cons_mul] at hb
        cases hres : compileBody rest with
        | error e => rw [hres] at hb; simp [Except.map] at hb
        | ok tail =>
            rw [hres] at hb; simp only [Except.map] at hb
            injection hb with hb; subst hb
            rcases List.mem_append.mp hmem with hin | hin
            · simp [mulBlock, movsd_memory_reg, movsd_reg_memory,
                movsd_reg_reg, mulsd, addsd, subsd] at hin
              rcases hin with rfl | rfl | rfl | rfl | rfl | rfl | rfl |
                rfl | rfl | rfl | rfl | rfl | rfl | rfl
              all_goals simp [disps] at hb2
              all_goals subst hb2
              all_goals first
                | (rw [sbyte_charDisp h1 h2']; omega)
                | (rw [sbyte_charDisp h3 h4']; omega)
                | (rw [sbyte_charDisp_eight h1 h2']; omega)
                | (rw [sbyte_charDisp_eight h3 h4']; omega)
            · exact ih tail hres op' hin b hb2

/-- C3 counterexample: the claim requires any displacement outside
[-128, 127] to be rejected and, for a 9-register program, compilation to
fail with `OffsetOverflow` before emitting anything.  In fact compiling
`"=ai"` (register i has index 8, displacement 16 * 8 = 128 > 127)
succeeds: the encoder silently truncates 128 to -128 and the byte 0x80
is emitted; no error of any kind is raised. -/
theorem c3_truncation_counterexample :
    compile ['=', 'a', 'i']
      = .ok [.movpd_memory_reg 0 0, .movpd_reg_memory 0 (-128), .ret] ∧
    charDisp 'i' = -128 ∧
    compileBytes ['=', 'a', 'i']
      = .ok [0x66, 0x0f, 0x10, 0x47, 0x00,
             0x66, 0x0f, 0x11, 0x47, 0x80, 0xc3] ∧
    ∀ e, compile ['=', 'a', 'i'] ≠ .error e :=
  ⟨by decide, by decide, by decide, fun _ h => nomatch h⟩

/-- C3 (amended): the encoder never rejects anything — each `char`
parameter silently truncates its displacement into [-128, 127], so every
displacement field of every compiled routine lies in that interval by
construction; and for programs whose register operands are all inside an
N ≤ 8 register file the displacements are the untruncated values in
[0, 120].  There is no `OffsetOverflow` check: compilation succeeds even
when a register index forces truncation (see the counterexample). -/
theorem c3_displacements_truncated_not_rejected (code : List Char)
    (ops : List MicroOp) (h : compile code = .ok ops) :
    (∀ op ∈ ops, ∀ b ∈ disps op, -128 ≤ b ∧ b ≤ 127) ∧
    (WellFormed 8 code → ∀ op ∈ ops, ∀ b ∈ disps op, 0 ≤ b ∧ b ≤ 120) := by
  unfold compile at h
  cases hres : compileBody code with
  | error e => rw [hres] at h; simp [Except.map] at h
  | ok body =>
      rw [hres] at h
      simp only [Except.map] at h
      injection h with h
      subst h
      constructor
      · intro op hmem b hb2
        rcases List.mem_append.mp hmem with hin | hin
        · obtain ⟨op2, c1, c2, blk, he, hin2⟩ :=
            compileBody_blocks code body hres op hin
          exact emitInsn_disps he op hin2 b hb2
        · simp at hin; subst hin; simp [disps] at hb2
      · intro hwf op hmem b hb2
        rcases List.mem_append.mp hmem with hin | hin
        · exact compileBody_disps_wf hwf body hres op hin b hb2
        · simp at hin; subst hin; simp [disps] at hb2

/-- Witness for C3 (amended) at the program `"=ab"`. -/
theorem c3_displacements_truncated_witness :
    (∀ op ∈ [MicroOp.movpd_memory_reg 0 0, MicroOp.movpd_reg_memory 0 16,
        MicroOp.ret], ∀ b ∈ disps op, -128 ≤ b ∧ b ≤ 127) ∧
    (WellFormed 8 ['=', 'a', 'b'] →
      ∀ op ∈ [MicroOp.movpd_memory_reg 0 0, MicroOp.movpd_reg_memory 0 16,
        MicroOp.ret], ∀ b ∈ disps op, 0 ≤ b ∧ b ≤ 120) :=
  c3_displacements_truncated_not_rejected ['=', 'a', 'b'] _ (by decide)

/-- C10: compiling the empty program succeeds and emits exactly the one
return instruction (byte 0xc3); executing that routine is the identity
on every memory, over every scalar interpretation. -/
theorem c10_empty_program_identity :
    compile [] = .ok [MicroOp.ret] ∧
    compileBytes [] = .ok [0xc3] ∧
    ∀ (E : Type) (o : Ops E) (x : XmmFile E) (m : Memory E),
      execOps o [MicroOp.ret] x m = m :=
  ⟨rfl, rfl, fun _ _ _ _ => rfl⟩

theorem execOps_ret_cons (o : Ops D) (rest : List MicroOp) (x : XmmFile D)
    (m : Memory D) : execOps o (MicroOp.ret :: rest) x m = m := rfl

theorem execOps_cons_of_ne (o : Ops D) (op : MicroOp) (rest : List MicroOp)
    (x : XmmFile D) (m : Memory D) (h : op ≠ MicroOp.ret) :
    execOps o (op :: rest) x m
      = execOps o rest (execOp o op x m).1 (execOp o op x m).2 := by
  cases op <;> first | rfl | exact absurd rfl h

/-- A single micro-op leaves every memory slot outside its write set
unchanged. -/
theorem execOp_mem_frame (o : Ops D) (op : MicroOp) (x : XmmFile D)
    (m : Memory D) (a : ℤ) (h : ∀ b ∈ wset op, b ≠ a) :
    (execOp o op x m).2 a = m a := by
  cases op with
  | movpd_reg_memory r d =>
      have h1 : d ≠ a := h d (by simp [wset])
      have h2 : d + 8 ≠ a := h (d + 8) (by simp [wset])
      show mupd (mupd m d _) (d + 8) _ a = m a
      rw [mupd_apply, if_neg (Ne.symm h2), mupd_apply, if_neg (Ne.symm h1)]
  | movsd_reg_memory r d =>
      have h1 : d ≠ a := h d (by simp [wset])
      show mupd m d _ a = m a
      rw [mupd_apply, if_neg (Ne.symm h1)]
  | movpd_memory_reg d r => rfl
  | addpd_memory_reg d r => rfl
  | movsd_memory_reg d r => rfl
  | movsd_reg_reg s t => rfl
  | mulsd s t => rfl
  | addsd s t => rfl
  | subsd s t => rfl
  | ret => rfl

/-- Running a routine leaves every memory slot outside the union of the
write sets unchanged. -/
theorem execOps_frame (o : Ops D) :
    ∀ (ops : List MicroOp) (x : XmmFile D) (m : Memory D) (a : ℤ),
      (∀ op ∈ ops, ∀ b ∈ wset op, b ≠ a) → execOps o ops x m a = m a := by
  intro ops
  induction ops with
  | nil => intro x m a h; rfl
  | cons op rest ih =>
      intro x m a h
      by_cases hr : op = MicroOp.ret
      · subst hr; rfl
      · rw [execOps_cons_of_ne o op rest x m hr,
          ih _ _ a (fun op2 h2 => h op2 (List.mem_cons_of_mem _ h2)),
          execOp_mem_frame o op x m a (h op (List.mem_cons_self _ _))]

/-- A single micro-op started in the same xmm state on two memories that
agree on a set covering its read set produces the same xmm state, and
memories again agreeing on that set. -/
theorem execOp_congr (o : Ops D) (P : ℤ → Prop) (op : MicroOp)
    (x : XmmFile D) (m m' : Memory D)
    (hP : ∀ b ∈ rset op, P b) (hm : ∀ b, P b → m b = m' b) :
    (execOp o op x m).1 = (execOp o op x m').1 ∧
    (∀ b, P b → (execOp o op x m).2 b = (execOp o op x m').2 b) := by
  cases op with
  | movpd_memory_reg d r =>
      refine ⟨?_, fun b hb => hm b hb⟩
      show xupd x r ⟨m d, m (d + 8)⟩ = xupd x r ⟨m' d, m' (d + 8)⟩
      rw [hm d (hP d (by simp [rset])), hm (d + 8) (hP (d + 8) (by simp [rset]))]
  | addpd_memory_reg d r =>
      refine ⟨?_, fun b hb => hm b hb⟩
      show xupd x r ⟨o.add _ (m d), o.add _ (m (d + 8))⟩
        = xupd x r ⟨o.add _ (m' d), o.add _ (m' (d + 8))⟩
      rw [hm d (hP d (by simp [rset])), hm (d + 8) (hP (d + 8) (by simp [rset]))]
  | movsd_memory_reg d r =>
      refine ⟨?_, fun b hb => hm b hb⟩
      show xupd x r ⟨m d, o.zero⟩ = xupd x r ⟨m' d, o.zero⟩
      rw [hm d (hP d (by simp [rset]))]
  | movpd_reg_memory r d =>
      refine ⟨rfl, fun b hb => ?_⟩
      show mupd (mupd m d _) (d + 8) _ b = mupd (mupd m' d _) (d + 8) _ b
      simp only [mupd]
      split_ifs <;> first | rfl | exact hm b hb
  | movsd_reg_memory r d =>
      refine ⟨rfl, fun b hb => ?_⟩
      show mupd m d _ b = mupd m' d _ b
      simp only [mupd]
      split_ifs <;> first | rfl | exact hm b hb
  | movsd_reg_reg s t => exact ⟨rfl, fun b hb => hm b hb⟩
  | mulsd s t => exact ⟨rfl, fun b hb => hm b hb⟩
  | addsd s t => exact ⟨rfl, fun b hb => hm b hb⟩
  | subsd s t => exact ⟨rfl, fun b hb => hm b hb⟩
  | ret => exact ⟨rfl, fun b hb => hm b hb⟩

/-- Running a routine on two memories that agree on a set covering all
its read sets yields memories that still agree on that set: the routine
reads nothing outside the set that could influence the visible state. -/
theorem execOps_congr (o : Ops D) (P : ℤ → Prop) :
    ∀ (ops : List MicroOp),
      (∀ op ∈ ops, ∀ b ∈ rset op, P b) →
      ∀ (x : XmmFile D) (m m' : Memory D),
        (∀ b, P b → m b = m' b) →
        ∀ b, P b → execOps o ops x m b = execOps o ops x m' b := by
  intro ops
  induction ops with
  | nil => intro _ x m m' hm b hb; exact hm b hb
  | cons op rest ih =>
      intro hops x m m' hm b hb
      by_cases hr : op = MicroOp.ret
      · subst hr
        rw [execOps_ret_cons, execOps_ret_cons]
        exact hm b hb
      · rw [execOps_cons_of_ne o op rest x m hr,
          execOps_cons_of_ne o op rest x m' hr]
        obtain ⟨hx1, hm2⟩ := execOp_congr o P op x m m'
          (hops op (List.mem_cons_self _ _)) hm
        rw [← hx1]
        exact ih (fun op2 h2 => hops op2 (List.mem_cons_of_mem _ h2))
          _ _ _ hm2 b hb

/-- On bytecode well formed for N ≤ 8 registers, every memory offset the
emitted loop body reads or writes lies inside the register-file region
[0, 16 N). -/
theorem compileBody_access_wf {N : ℕ} (hN : N ≤ 8) :
    ∀ {code : List Char}, WellFormed N code →
      ∀ body, compileBody code = .ok body →
        ∀ op ∈ body, ∀ b ∈ rset op ++ wset op,
          0 ≤ b ∧ b < 16 * (N : ℤ) := by
  intro code h
  induction h with
  | nil =>
      intro body hb op hmem
      injection hb with hb; subst hb; simp at hmem
  | insn op c1 c2 rest hop h1 h2 h3 h4 hwf ih =>
      intro body hb op' hmem b hb2
      have hN8 : ((N : ℤ)) ≤ 8 := by exact_mod_cast hN
      have h2' : regIdx c1 < 8 := by omega
      have h4' : regIdx c2 < 8 := by omega
      have E1 : rdsp c1 = 16 * regIdx c1 := rfl
      have E2 : rdsp c2 = 16 * regIdx c2 := rfl
      rcases hop with rfl | rfl | rfl
      · rw [compileBody_cons_assign] at hb
        cases hres : compileBody rest with
        | error e => rw [hres] at hb; simp [Except.map] at hb
        | ok tail =>
            rw [hres] at hb; simp only [Except.map] at hb
            injection hb with hb; subst hb
            rcases List.mem_append.mp hmem with hin | hin
            · simp [assignBlock, movpd_memory_reg, movpd_reg_memory] at hin
              rcases hin with rfl | rfl
              all_goals simp [rset, wset] at hb2
              all_goals rcases hb2 with rfl | rfl
              all_goals first
                | (rw [sbyte_charDisp h1 h2']; omega)
                | (rw [sbyte_charDisp h3 h4']; omega)
            · exact ih tail hres op' hin b hb2
      · rw [compileBody_cons_add] at hb
        cases hres : compileBody rest with
        | error e => rw [hres] at hb; simp [Except.map] at hb
        | ok tail =>
            rw [hres] at hb; simp only [Except.map] at hb
            injection hb with hb; subst hb
            rcases List.mem_append.mp hmem with hin | hin
            · simp [addBlock, movpd_memory_reg, addpd_memory_reg,
                movpd_reg_memory] at hin
              rcases hin with rfl | rfl | rfl
              all_goals simp [rset, wset] at hb2
              all_goals rcases hb2 with rfl | rfl
              all_goals first
                | (have hsb := sbyte_charDisp h1 h2'; omega)
                | (have hsb := sbyte_charDisp h3 h4'; omega)
            · exact ih tail hres op' hin b hb2
      · rw [compileBody_cons_mul] at hb
        cases hres : compileBody rest with
        | error e => rw [hres] at hb; simp [Except.map] at hb
        | ok tail =>
            rw [hres] at hb; simp only [Except.map] at hb
            injection hb with hb; subst hb
            rcases List.mem_append.mp hmem with hin | hin
            · simp [mulBlock, movsd_memory_reg, movsd_reg_memory,
                movsd_reg_reg, mulsd, addsd, subsd] at hin
              rcases hin with rfl | rfl | rfl | rfl | rfl | rfl | rfl |
                rfl | rfl | rfl | rfl | rfl | rfl | rfl
              all_goals simp [rset, wset] at hb2
              all_goals subst hb2
              all_goals first
                | (have hsb := sbyte_charDisp h1 h2'; omega)
                | (have hsb := sbyte_charDisp h3 h4'; omega)
                | (have hsb := sbyte_charDisp_eight h1 h2'; omega)
                | (have hsb := sbyte_charDisp_eight h3 h4'; omega)
            · exact ih tail hres op' hin b hb2

/-- C7: a routine compiled from bytecode whose register operands are all
valid for an N-register file (N ≤ 8, the layout invariant) touches only
the register-file region: every read or write offset of its micro-ops
lies in [0, 16 N); consequently executing it leaves every memory slot
outside [0, 16 N) unchanged, and its effect on the region depends only
on the region's contents — all guaranteed statically, with no bounds
check present in the generated micro-ops themselves. -/
theorem c7_memory_frame (E : Type) (o : Ops E) (N : ℕ) (hN : N ≤ 8)
    (code : List Char) (h : WellFormed N code) :
    ∃ ops, compile code = .ok ops ∧
      (∀ op ∈ ops, ∀ b ∈ rset op ++ wset op, 0 ≤ b ∧ b < 16 * (N : ℤ)) ∧
      (∀ (x : XmmFile E) (m : Memory E) (b : ℤ),
          ¬ (0 ≤ b ∧ b < 16 * (N : ℤ)) → execOps o ops x m b = m b) ∧
      (∀ (x : XmmFile E) (m m' : Memory E),
          (∀ b : ℤ, 0 ≤ b ∧ b < 16 * (N : ℤ) → m b = m' b) →
          ∀ b : ℤ, 0 ≤ b ∧ b < 16 * (N : ℤ) →
            execOps o ops x m b = execOps o ops x m' b) := by
  obtain ⟨body, hb⟩ := compileBody_ok_of_wf h
  have hacc : ∀ op ∈ body ++ [MicroOp.ret], ∀ b ∈ rset op ++ wset op,
      0 ≤ b ∧ b < 16 * (N : ℤ) := by
    intro op hmem b hb2
    rcases List.mem_append.mp hmem with hin | hin
    · exact compileBody_access_wf hN h body hb op hin b hb2
    · simp at hin; subst hin; simp [rset, wset] at hb2
  refine ⟨body ++ [MicroOp.ret], by unfold compile; rw [hb]; rfl,
    hacc, ?_, ?_⟩
  · intro x m b hout
    refine execOps_frame o _ x m b (fun op hmem b2 hb2 he => ?_)
    subst he
    exact hout (hacc op hmem b2
      (List.mem_append.mpr (Or.inr hb2)))
  · intro x m m' hm b hbb
    exact execOps_congr o (fun b2 => 0 ≤ b2 ∧ b2 < 16 * (N : ℤ))
      (body ++ [MicroOp.ret])
      (fun op hmem b2 hb2 => hacc op hmem b2
        (List.mem_append.mpr (Or.inl hb2)))
      x m m' hm b hbb

/-- Witness for C7: the frame property instantiated at N = 4 and the
program `"=ab"` over ℤ. -/
theorem c7_memory_frame_witness :
    ∃ ops, compile ['=', 'a', 'b'] = .ok ops ∧
      (∀ op ∈ ops, ∀ b ∈ rset op ++ wset op, 0 ≤ b ∧ b < 16 * ((4 : ℕ) : ℤ)) ∧
      (∀ (x : XmmFile ℤ) (m : Memory ℤ) (b : ℤ),
          ¬ (0 ≤ b ∧ b < 16 * ((4 : ℕ) : ℤ)) →
            execOps intOps ops x m b = m b) ∧
      (∀ (x : XmmFile ℤ) (m m' : Memory ℤ),
          (∀ b : ℤ, 0 ≤ b ∧ b < 16 * ((4 : ℕ) : ℤ) → m b = m' b) →
          ∀ b : ℤ, 0 ≤ b ∧ b < 16 * ((4 : ℕ) : ℤ) →
            execOps intOps ops x m b = execOps intOps ops x m' b) :=
  c7_memory_frame ℤ intOps 4 (by omega) ['=', 'a', 'b']
    (WellFormed.insn '=' 'a' 'b' [] (Or.inl rfl)
      (by decide) (by decide) (by decide) (by decide) WellFormed.nil)

end Jit
